import Mathlib

/-!
Shallow embedding of the exact TSP dynamic-programming solver (`dp.py`) and
the brute-force permutation oracle (`brute.py`) of the `sat` repository,
together with proofs of the specified properties.

Machine integers in the source are Python arbitrary-precision integers, so
costs are embedded as `Int`.  Python list indexing raises `IndexError` when
out of bounds, and dictionary lookup raises `KeyError` when the key is
missing; both are modelled with `Except PyErr`.
-/

/-- Python runtime errors the embedded code can raise.  `fuelOut` is an
artifact of the fuel-indexed encoding of the recursion; the entry points pass
enough fuel that it never occurs (proved below). -/
inductive PyErr : Type
  | indexError : PyErr
  | keyError : PyErr
  | fuelOut : PyErr
  deriving DecidableEq, Repr

/-- Python list indexing `l[i]` for a natural index: `IndexError` when out of
bounds. -/
def pyIdx {α : Type} (l : List α) (i : Nat) : Except PyErr α :=
  match l[i]? with
  | some x => .ok x
  | none => .error .indexError

/-- `MAX = 999999`, the sentinel used as infinity by `dp.py`. -/
def MAX : Int := 999999

/-- The `for city in range(n)` loop in the body of `TSP` (`dp.py`, lines
25-34).  `tsp` is the recursive call (returning the cost only), `ans`/`best`
are the running minimum and the value last written to `next_move[(mask, pos)]`
(`none` when no write has happened). -/
def TSPloop (g : List (List Int)) (tsp : Nat → Nat → Except PyErr Int)
    (mask pos : Nat) : List Nat → Int → Option Nat → Except PyErr (Int × Option Nat)
  | [], ans, best => .ok (ans, best)
  | city :: rest, ans, best =>
    if mask &&& (1 <<< city) = 0 then
      match pyIdx g pos with
      | .error e => .error e
      | .ok row =>
        match pyIdx row city with
        | .error e => .error e
        | .ok gv =>
          match tsp (mask ||| (1 <<< city)) city with
          | .error e => .error e
          | .ok sub =>
            if gv + sub < ans then TSPloop g tsp mask pos rest (gv + sub) (some city)
            else TSPloop g tsp mask pos rest ans best
    else TSPloop g tsp mask pos rest ans best

/-- The function `TSP` of `dp.py`.  The memo table `dp[mask][pos]` only caches
values that the recursion would recompute identically, so it is elided, except
for its indexing: reading `dp[mask][pos]` raises `IndexError` unless
`mask < 2^n` and `pos < n` (this is what an `n = 0` solve hits).  The result
pairs the cost with the final `next_move[(mask, pos)]` entry recorded while
this state's body ran (`none` when the loop never improved on `MAX`, i.e. no
entry was written).  Recursion is indexed by fuel; every call site passes
enough fuel (proved below). -/
def TSP (g : List (List Int)) (n : Nat) : Nat → Nat → Nat → Except PyErr (Int × Option Nat)
  | 0, _, _ => .error .fuelOut
  | fuel + 1, mask, pos =>
    if mask = 2 ^ n - 1 then
      match pyIdx g pos with
      | .error e => .error e
      | .ok row =>
        match pyIdx row 0 with
        | .error e => .error e
        | .ok v => .ok (v, none)
    else if mask < 2 ^ n ∧ pos < n then
      TSPloop g (fun m p => (TSP g n fuel m p).map Prod.fst) mask pos (List.range n) MAX none
    else .error .indexError

/-- The entry `next_move[(mask, pos)]` of the move-selection dictionary after
the solve: each state's body runs exactly once (memoization), and its final
dictionary write is the `best` component computed by `TSPloop`. -/
def nextMove (g : List (List Int)) (n mask pos : Nat) : Option Nat :=
  match TSP g n (n + 1) mask pos with
  | .ok (_, best) => best
  | .error _ => none

/-- The reconstruction `while len(path) < n` loop of `dp` (`dp.py`, lines
49-55), fuel-indexed.  A missing `next_move` entry raises `KeyError`. -/
def reconLoop (g : List (List Int)) (n : Nat) : Nat → Nat → Nat → List Nat → Except PyErr (List Nat)
  | fuel, mask, pos, path =>
    if path.length < n then
      match fuel with
      | 0 => .error .fuelOut
      | fuel' + 1 =>
        match nextMove g n mask pos with
        | some c => reconLoop g n fuel' (mask ||| (1 <<< c)) c (path ++ [c])
        | none => .error .keyError
    else .ok (path ++ [0])

/-- The function `dp` of `dp.py`: solve from state `(mask, pos) = (1, 0)`,
then reconstruct the path starting from `path = [0]`. -/
def dp (g : List (List Int)) : Except PyErr (Int × List Nat) :=
  let n := g.length
  match TSP g n (n + 1) 1 0 with
  | .error e => .error e
  | .ok (cost, _) =>
    match reconLoop g n n 1 0 [0] with
    | .error e => .error e
    | .ok path => .ok (cost, path)

/-- `sys.maxsize` on a 64-bit platform, the initial `min_cost` in `brute.py`. -/
def maxsize : Int := 9223372036854775807

/-- Fuel-indexed helper for `itperms`; the fuel always equals the list
length. -/
def itpermsAux : Nat → List Nat → List (List Nat)
  | 0, _ => [[]]
  | fuel + 1, xs => xs.flatMap (fun x => (itpermsAux fuel (xs.erase x)).map (fun p => x :: p))

/-- `itertools.permutations xs` for a duplicate-free list: all orderings, in
lexicographic order of positions. -/
def itperms (xs : List Nat) : List (List Nat) := itpermsAux xs.length xs

/-- The inner cost loop of `brute` (`brute.py`, lines 22-29): starting at
vertex `k` with running weight `w`, add `graph[k][j]` for each `j` of the
permutation, then close with `graph[k][s]`. -/
def pathWeight (g : List (List Int)) (s : Nat) : Nat → List Nat → Int → Except PyErr Int
  | k, [], w =>
    match pyIdx g k with
    | .error e => .error e
    | .ok row =>
      match pyIdx row s with
      | .error e => .error e
      | .ok v => .ok (w + v)
  | k, j :: rest, w =>
    match pyIdx g k with
    | .error e => .error e
    | .ok row =>
      match pyIdx row j with
      | .error e => .error e
      | .ok v => pathWeight g s j rest (w + v)

/-- The `for i in next_permutation` loop of `brute` (`brute.py`, lines 19-34),
tracking `min_cost` and `min_path`. -/
def bruteLoop (g : List (List Int)) (s : Nat) : List (List Nat) → Int → List Nat → Except PyErr (Int × List Nat)
  | [], mc, mp => .ok (mc, mp)
  | p :: ps, mc, mp =>
    match pathWeight g s s p 0 with
    | .error e => .error e
    | .ok w => if w < mc then bruteLoop g s ps w p else bruteLoop g s ps mc mp

/-- The function `brute` of `brute.py`.  The module-level constant `V = 4` is
hard-coded: `vertex` is always built from `range(4)` regardless of the size of
`graph`. -/
def brute (g : List (List Int)) (s : Nat) : Except PyErr (Int × List Nat) :=
  match bruteLoop g s (itperms ((List.range 4).filter (fun i => i != s))) maxsize [] with
  | .error e => .error e
  | .ok (mc, mp) => .ok (mc, 0 :: (mp ++ [0]))

/-- `g[i][j]` as a total function (junk value `0` out of range); used only in
specification-side definitions, where indices are always in range. -/
def getE (g : List (List Int)) (i j : Nat) : Int :=
  ((g[i]?.bind (fun r => r[j]?)).getD 0)

/-- A valid Cost Matrix in the sense of the specification: square,
non-negative entries, zero diagonal. -/
def validM (g : List (List Int)) : Prop :=
  (∀ row ∈ g, row.length = g.length) ∧
  (∀ row ∈ g, ∀ x ∈ row, 0 ≤ x) ∧
  (∀ i < g.length, getE g i i = 0)

/-- Minimum of a list of integers (`0` for the empty list, which never
arises in use). -/
def minL : List Int → Int
  | [] => 0
  | x :: xs => xs.foldl min x

/-- The cities of `range n` not yet visited in `mask` — exactly the cities
the `TSP` loop recurses into. -/
def unv (n mask : Nat) : List Nat :=
  (List.range n).filter (fun c => mask &&& (1 <<< c) == 0)

/-- Cost of the walk `pos → c₁ → ... → cₖ → 0` (the final return to the start
city is always included). -/
def pathCost (g : List (List Int)) : Nat → List Nat → Int
  | pos, [] => getE g pos 0
  | pos, c :: cs => getE g pos c + pathCost g c cs

/-- Modelled from the spec: the true minimum cost of completing a tour from
state `(mask, pos)` — the minimum over all orderings of the unvisited cities
of the cost of visiting them and returning to city 0. -/
def tourMin (g : List (List Int)) (n mask pos : Nat) : Int :=
  minL ((itperms (unv n mask)).map (pathCost g pos))

/-- Modelled from the spec: the minimum cost over all Hamiltonian cycles that
start and end at city 0 and visit every other city exactly once. -/
def hamMin (g : List (List Int)) : Int := tourMin g g.length 1 0

/-- Sum of `g[t i][t (i+1)]` over consecutive entries of `t`. -/
def tourSum (g : List (List Int)) : List Nat → Int
  | a :: b :: rest => getE g a b + tourSum g (b :: rest)
  | _ => 0

/-- The states `(mask, pos)` at which `TSP` can be evaluated during a solve
with `n` cities: the initial state `(1, 0)` and everything reachable by
recursing into an unvisited city. -/
inductive TSPReach (n : Nat) : Nat → Nat → Prop
  | init : TSPReach n 1 0
  | step {mask pos city : Nat} : TSPReach n mask pos → city < n →
      mask &&& (1 <<< city) = 0 → TSPReach n (mask ||| (1 <<< city)) city

/-- The states `(mask, pos)` looked up in `next_move` during path
reconstruction. -/
inductive ReconReach (g : List (List Int)) (n : Nat) : Nat → Nat → Prop
  | init : ReconReach g n 1 0
  | step {mask pos c : Nat} : ReconReach g n mask pos →
      nextMove g n mask pos = some c → ReconReach g n (mask ||| (1 <<< c)) c

instance (g : List (List Int)) : Decidable (validM g) := by
  unfold validM
  infer_instance

instance {ε α : Type} [DecidableEq ε] [DecidableEq α] : DecidableEq (Except ε α) := fun a b =>
  match a, b with
  | .ok x, .ok y => if h : x = y then .isTrue (by rw [h]) else .isFalse (by simp [h])
  | .error e, .error f => if h : e = f then .isTrue (by rw [h]) else .isFalse (by simp [h])
  | .ok _, .error _ => .isFalse (by simp)
  | .error _, .ok _ => .isFalse (by simp)

/-! ### Bitmask lemmas -/

theorem and_shift_eq_zero (mask c : Nat) :
    mask &&& (1 <<< c) = 0 ↔ mask.testBit c = false := by
  rw [Nat.one_shiftLeft, Nat.and_two_pow]
  cases h : mask.testBit c <;> simp [h, Nat.pos_iff_ne_zero, Nat.pow_eq_zero]

theorem mem_unv {n mask c : Nat} :
    c ∈ unv n mask ↔ c < n ∧ mask &&& (1 <<< c) = 0 := by
  simp [unv, List.mem_filter, List.mem_range]

theorem unv_nodup (n mask : Nat) : (unv n mask).Nodup :=
  (List.nodup_range n).filter _

theorem unv_pairwise (n mask : Nat) : (unv n mask).Pairwise (· < ·) :=
  (List.pairwise_lt_range n).filter _

theorem and_or_shift (mask c x : Nat) :
    (mask ||| (1 <<< c)) &&& (1 <<< x) = 0 ↔ mask &&& (1 <<< x) = 0 ∧ x ≠ c := by
  rw [and_shift_eq_zero, and_shift_eq_zero, Nat.testBit_or, Bool.or_eq_false_iff]
  constructor
  · rintro ⟨h1, h2⟩
    refine ⟨h1, fun hxc => ?_⟩
    subst hxc
    rw [Nat.one_shiftLeft, Nat.testBit_two_pow_self] at h2
    exact Bool.noConfusion h2
  · rintro ⟨h1, h2⟩
    refine ⟨h1, ?_⟩
    rw [Nat.one_shiftLeft]
    exact Nat.testBit_two_pow_of_ne (fun hcx => h2 hcx.symm)

theorem unv_or {n mask c : Nat} (hc : c ∈ unv n mask) :
    unv n (mask ||| (1 <<< c)) = (unv n mask).erase c := by
  rw [(unv_nodup n mask).erase_eq_filter c, unv, unv, List.filter_filter]
  apply List.filter_congr
  intro x _
  rcases h : (mask ||| (1 <<< c)) &&& (1 <<< x) with _ | y
  · have := (and_or_shift mask c x).mp h
    simp [this.1, this.2]
  · have : ¬ (mask &&& (1 <<< x) = 0 ∧ x ≠ c) := fun hh => by
      have := (and_or_shift mask c x).mpr hh
      rw [h] at this
      exact Nat.succ_ne_zero y this
    rcases eq_or_ne x c with rfl | hxc
    · simp
    · have h0 : ¬ mask &&& (1 <<< x) = 0 := fun h1 => this ⟨h1, hxc⟩
      simp [h0]

theorem shift_lt_two_pow {c n : Nat} (h : c < n) : 1 <<< c < 2 ^ n := by
  rw [Nat.one_shiftLeft]
  exact Nat.pow_lt_pow_right (by omega) h

theorem or_shift_lt {mask c n : Nat} (hm : mask < 2 ^ n) (hc : c < n) :
    mask ||| (1 <<< c) < 2 ^ n :=
  Nat.or_lt_two_pow hm (shift_lt_two_pow hc)

theorem unv_nil_iff {n mask : Nat} (hm : mask < 2 ^ n) :
    unv n mask = [] ↔ mask = 2 ^ n - 1 := by
  constructor
  · intro h
    apply Nat.eq_of_testBit_eq
    intro i
    rw [Nat.testBit_two_pow_sub_one]
    rcases Nat.lt_or_ge i n with hi | hi
    · simp only [List.filter_eq_nil_iff, unv] at h
      have := h i (List.mem_range.mpr hi)
      simp only [beq_iff_eq] at this
      have h2 := (and_shift_eq_zero mask i).not.mp this
      simp only [Bool.not_eq_false] at h2
      simp [h2, hi]
    · have : mask < 2 ^ i := lt_of_lt_of_le hm (Nat.pow_le_pow_right (by omega) hi)
      simp [Nat.testBit_lt_two_pow this, Nat.lt_iff_add_one_le]
      omega
  · intro h
    subst h
    simp only [unv, List.filter_eq_nil_iff]
    intro c hc
    rw [List.mem_range] at hc
    simp only [beq_iff_eq]
    rw [and_shift_eq_zero]
    simp [hc]

theorem unv_length_lt {n mask c : Nat} (hc : c ∈ unv n mask) :
    (unv n (mask ||| (1 <<< c))).length < (unv n mask).length := by
  rw [unv_or hc, List.length_erase_of_mem hc]
  have : unv n mask ≠ [] := fun h => by simp [h] at hc
  have : 0 < (unv n mask).length := List.length_pos.mpr this
  omega

/-! ### Lemmas about the list minimum -/

theorem foldl_min_le_init (a : Int) (l : List Int) : l.foldl min a ≤ a := by
  induction l generalizing a with
  | nil => exact le_refl a
  | cons x xs ih => exact le_trans (ih (min a x)) (min_le_left a x)

theorem foldl_min_le_mem {x : Int} {l : List Int} (a : Int) (h : x ∈ l) :
    l.foldl min a ≤ x := by
  induction l generalizing a with
  | nil => cases h
  | cons y ys ih =>
    rcases List.mem_cons.mp h with rfl | hy
    · rw [List.foldl_cons]
      exact le_trans (foldl_min_le_init _ _) (min_le_right a x)
    · exact ih _ hy

theorem foldl_min_cases (a : Int) (l : List Int) :
    l.foldl min a = a ∨ l.foldl min a ∈ l := by
  induction l generalizing a with
  | nil => exact Or.inl rfl
  | cons x xs ih =>
    rcases ih (min a x) with h | h
    · rcases le_total a x with hax | hax
      · rw [List.foldl_cons, h, min_eq_left hax]
        exact Or.inl rfl
      · rw [List.foldl_cons, h, min_eq_right hax]
        exact Or.inr (List.mem_cons_self x xs)
    · exact Or.inr (List.mem_cons_of_mem x h)

theorem le_foldl_min {b a : Int} {l : List Int} (h1 : b ≤ a) (h2 : ∀ x ∈ l, b ≤ x) :
    b ≤ l.foldl min a := by
  induction l generalizing a with
  | nil => exact h1
  | cons x xs ih =>
    exact ih (le_min h1 (h2 x (List.mem_cons_self x xs))) (fun y hy => h2 y (List.mem_cons_of_mem x hy))

theorem minL_le {x : Int} {l : List Int} (h : x ∈ l) : minL l ≤ x := by
  cases l with
  | nil => cases h
  | cons a as =>
    rcases List.mem_cons.mp h with rfl | ha
    · exact foldl_min_le_init x as
    · exact foldl_min_le_mem a ha

theorem minL_mem {l : List Int} (h : l ≠ []) : minL l ∈ l := by
  cases l with
  | nil => exact absurd rfl h
  | cons a as =>
    rcases foldl_min_cases a as with h1 | h1
    · simp only [minL, h1]
      exact List.mem_cons_self a as
    · simp only [minL]
      exact List.mem_cons_of_mem a h1

theorem le_minL {b : Int} {l : List Int} (h : l ≠ []) (h2 : ∀ x ∈ l, b ≤ x) :
    b ≤ minL l := by
  cases l with
  | nil => exact absurd rfl h
  | cons a as => exact le_foldl_min (h2 a (List.mem_cons_self a as)) (fun x hx => h2 x (List.mem_cons_of_mem a hx))

theorem foldl_min_min (a b : Int) (l : List Int) :
    l.foldl min (min a b) = min a (l.foldl min b) := by
  induction l generalizing b with
  | nil => rfl
  | cons x xs ih => rw [List.foldl_cons, List.foldl_cons, min_assoc, ih]

theorem minL_cons_of_ne_nil {y : Int} {ys : List Int} (h : ys ≠ []) :
    minL (y :: ys) = min y (minL ys) := by
  cases ys with
  | nil => exact absurd rfl h
  | cons z zs => rw [minL, minL, List.foldl_cons, foldl_min_min]

theorem minL_append {l1 l2 : List Int} (h1 : l1 ≠ []) (h2 : l2 ≠ []) :
    minL (l1 ++ l2) = min (minL l1) (minL l2) := by
  apply le_antisymm
  · apply le_min
    · exact minL_le (List.mem_append_left l2 (minL_mem h1))
    · exact minL_le (List.mem_append_right l1 (minL_mem h2))
  · apply le_minL (by simp [h1])
    intro x hx
    rcases List.mem_append.mp hx with hx | hx
    · exact le_trans (min_le_left _ _) (minL_le hx)
    · exact le_trans (min_le_right _ _) (minL_le hx)

theorem foldl_min_map_add {α : Type} (a : Int) (h : α → Int) (l : List α) :
    ∀ b : Int, (l.map (fun x => a + h x)).foldl min (a + b) = a + (l.map h).foldl min b := by
  induction l with
  | nil => intro b; rfl
  | cons x xs ih =>
    intro b
    simp only [List.map_cons, List.foldl_cons]
    rw [min_add_add_left]
    exact ih (min b (h x))

theorem minL_map_add {α : Type} (a : Int) (h : α → Int) {l : List α} (hl : l ≠ []) :
    minL (l.map (fun x => a + h x)) = a + minL (l.map h) := by
  cases l with
  | nil => exact absurd rfl hl
  | cons x xs =>
    simp only [List.map_cons, minL]
    exact foldl_min_map_add a h xs (h x)

theorem minL_flatMap {α : Type} (G : α → List Int) {xs : List α} (hxs : xs ≠ [])
    (hG : ∀ x ∈ xs, G x ≠ []) :
    minL (xs.flatMap G) = minL (xs.map fun x => minL (G x)) := by
  induction xs with
  | nil => exact absurd rfl hxs
  | cons x rest ih =>
    cases rest with
    | nil => simp [minL]
    | cons y ys =>
      have hrest : (y :: ys).flatMap G ≠ [] := by
        rw [Ne, List.flatMap_eq_nil_iff]
        intro h
        exact hG y (by simp) (h y (by simp))
      calc minL ((x :: y :: ys).flatMap G)
          = minL (G x ++ (y :: ys).flatMap G) := by rw [List.flatMap_cons]
        _ = min (minL (G x)) (minL ((y :: ys).flatMap G)) := minL_append (hG x (by simp)) hrest
        _ = min (minL (G x)) (minL ((y :: ys).map fun z => minL (G z))) := by
            rw [ih (by simp) (fun z hz => hG z (List.mem_cons_of_mem x hz))]
        _ = minL ((x :: y :: ys).map fun z => minL (G z)) := by
            rw [show (x :: y :: ys).map (fun z => minL (G z)) =
                minL (G x) :: ((y :: ys).map fun z => minL (G z)) from rfl]
            rw [minL_cons_of_ne_nil (show ((y :: ys).map fun z => minL (G z)) ≠ [] by simp)]

/-! ### Lemmas about `itperms` -/

theorem itperms_cons {xs : List Nat} (h : xs ≠ []) :
    itperms xs = xs.flatMap (fun x => (itperms (xs.erase x)).map (fun p => x :: p)) := by
  cases xs with
  | nil => exact absurd rfl h
  | cons a as =>
    show itpermsAux (as.length + 1) (a :: as) = _
    rw [itpermsAux]
    unfold List.flatMap
    congr 1
    apply List.map_congr_left
    intro x hx
    have : ((a :: as).erase x).length = as.length := by
      rw [List.length_erase_of_mem hx]
      rfl
    rw [itperms, this]

theorem mem_itperms {xs p : List Nat} : p ∈ itperms xs ↔ p.Perm xs := by
  suffices H : ∀ (n : Nat) (xs p : List Nat), xs.length = n → (p ∈ itperms xs ↔ p.Perm xs) by
    exact H xs.length xs p rfl
  intro n
  induction n using Nat.strong_induction_on with
  | _ n ih =>
    intro xs p hn
    cases xs with
    | nil =>
      simp only [itperms, itpermsAux, List.length_nil, List.mem_singleton]
      exact ⟨fun h => h ▸ List.Perm.refl [], fun h => List.perm_nil.mp h⟩
    | cons a as =>
      rw [itperms_cons (by simp)]
      simp only [List.mem_flatMap, List.mem_map]
      constructor
      · rintro ⟨x, hx, q, hq, rfl⟩
        have hlen : ((a :: as).erase x).length < n := by
          rw [List.length_erase_of_mem hx]
          simp only [List.length_cons] at hn ⊢
          omega
        have hq' : q.Perm ((a :: as).erase x) := (ih _ hlen _ q rfl).mp hq
        exact (hq'.cons x).trans (List.perm_cons_erase hx).symm
      · intro hp
        cases p with
        | nil => exact absurd (List.nil_perm.mp hp) (by simp)
        | cons c q =>
          have hc : c ∈ a :: as := hp.subset (List.mem_cons_self c q)
          have hq : q.Perm ((a :: as).erase c) := (List.cons_perm_iff_perm_erase.mp hp).2
          have hlen : ((a :: as).erase c).length < n := by
            rw [List.length_erase_of_mem hc]
            simp only [List.length_cons] at hn ⊢
            omega
          exact ⟨c, hc, q, (ih _ hlen _ q rfl).mpr hq, rfl⟩

theorem itperms_ne_nil (xs : List Nat) : itperms xs ≠ [] := by
  intro h
  have : xs ∈ itperms xs := mem_itperms.mpr (List.Perm.refl xs)
  rw [h] at this
  cases this

/-! ### The Bellman decomposition of `tourMin` -/

theorem tourMin_base {g : List (List Int)} {n mask pos : Nat} (h : unv n mask = []) :
    tourMin g n mask pos = getE g pos 0 := by
  rw [tourMin, h]
  rfl

theorem tourMin_decomp {g : List (List Int)} {n mask pos : Nat} (hne : unv n mask ≠ []) :
    tourMin g n mask pos =
      minL ((unv n mask).map fun c => getE g pos c + tourMin g n (mask ||| (1 <<< c)) c) := by
  unfold tourMin
  rw [itperms_cons hne, List.map_flatMap]
  rw [minL_flatMap _ hne (fun x hx => by simp [itperms_ne_nil])]
  congr 1
  apply List.map_congr_left
  intro x hx
  rw [List.map_map]
  rw [show (pathCost g pos ∘ fun p => x :: p) = (fun p => getE g pos x + pathCost g x p) from rfl]
  rw [minL_map_add _ _ (itperms_ne_nil _)]
  rw [unv_or hx]

/-! ### Access lemmas for valid matrices -/

theorem pyIdx_of_some {α : Type} {l : List α} {i : Nat} {x : α} (h : l[i]? = some x) :
    pyIdx l i = .ok x := by
  simp [pyIdx, h]

theorem valid_access {g : List (List Int)} (hv : validM g) {i j : Nat}
    (hi : i < g.length) (hj : j < g.length) :
    ∃ row, pyIdx g i = Except.ok row ∧ pyIdx row j = Except.ok (getE g i j) ∧
      0 ≤ getE g i j := by
  have hrow : g[i]? = some g[i] := List.getElem?_eq_getElem hi
  have hmem : g[i] ∈ g := List.getElem_mem hi
  have hrl : g[i].length = g.length := hv.1 _ hmem
  have hj' : j < g[i].length := by omega
  have hval : g[i][j]? = some g[i][j] := List.getElem?_eq_getElem hj'
  have hgetE : getE g i j = g[i][j] := by
    simp [getE, hrow, hval]
  refine ⟨g[i], pyIdx_of_some hrow, ?_, ?_⟩
  · rw [hgetE]
    exact pyIdx_of_some hval
  · rw [hgetE]
    exact hv.2.1 _ hmem _ (List.getElem_mem hj')

/-! ### Characterization of the `TSP` inner loop -/

theorem TSPloop_char (g : List (List Int)) (tsp : Nat → Nat → Except PyErr Int)
    (mask pos : Nat) (val : Nat → Int) :
    ∀ (cities : List Nat) (ans : Int) (best : Option Nat),
    cities.Pairwise (· < ·) →
    (∀ c ∈ cities, mask &&& (1 <<< c) = 0 →
      (∃ row, pyIdx g pos = .ok row ∧ pyIdx row c = .ok (getE g pos c)) ∧
      tsp (mask ||| (1 <<< c)) c = .ok (val c)) →
    ∃ ansf bestf, TSPloop g tsp mask pos cities ans best = .ok (ansf, bestf) ∧
      ansf ≤ ans ∧
      (∀ c ∈ cities, mask &&& (1 <<< c) = 0 → ansf ≤ getE g pos c + val c) ∧
      ((ansf = ans ∧ bestf = best) ∨
       (∃ c, c ∈ cities ∧ mask &&& (1 <<< c) = 0 ∧ bestf = some c ∧
         ansf = getE g pos c + val c ∧ ansf < ans ∧
         (∀ c' ∈ cities, mask &&& (1 <<< c') = 0 → c' < c →
            ansf < getE g pos c' + val c'))) := by
  intro cities
  induction cities with
  | nil =>
    intro ans best _ _
    exact ⟨ans, best, rfl, le_refl ans, by simp, Or.inl ⟨rfl, rfl⟩⟩
  | cons d rest ih =>
    intro ans best hpw hacc
    have hdlt : ∀ c ∈ rest, d < c := (List.pairwise_cons.mp hpw).1
    by_cases hd : mask &&& (1 <<< d) = 0
    · obtain ⟨⟨row, hrow, hentry⟩, htsp⟩ := hacc d (by simp) hd
      have hstep : TSPloop g tsp mask pos (d :: rest) ans best =
          (if getE g pos d + val d < ans then
            TSPloop g tsp mask pos rest (getE g pos d + val d) (some d)
          else TSPloop g tsp mask pos rest ans best) := by
        simp [TSPloop, hd, hrow, hentry, htsp]
      by_cases himp : getE g pos d + val d < ans
      · obtain ⟨ansf, bestf, heq, hle, hbnd, hcase⟩ :=
          ih (getE g pos d + val d) (some d) hpw.of_cons
            (fun c hc hcu => hacc c (List.mem_cons_of_mem d hc) hcu)
        rw [hstep, if_pos himp]
        refine ⟨ansf, bestf, heq, le_trans hle (le_of_lt himp), ?_, ?_⟩
        · intro c hc hcu
          rcases List.mem_cons.mp hc with rfl | hc'
          · exact hle
          · exact hbnd c hc' hcu
        · rcases hcase with ⟨h1, h2⟩ | ⟨c, hcrest, hcu, hbf, hansf, hlt, hfirst⟩
          · refine Or.inr ⟨d, List.mem_cons_self d rest, hd, h2, h1, h1 ▸ himp, ?_⟩
            intro c' hc' hcu' hlt'
            rcases List.mem_cons.mp hc' with rfl | hc''
            · exact absurd hlt' (lt_irrefl c')
            · exact absurd hlt' (not_lt.mpr (le_of_lt (hdlt c' hc'')))
          · refine Or.inr ⟨c, List.mem_cons_of_mem d hcrest, hcu, hbf, hansf,
              lt_trans hlt himp, ?_⟩
            intro c' hc' hcu' hltc
            rcases List.mem_cons.mp hc' with rfl | hc''
            · exact hlt
            · exact hfirst c' hc'' hcu' hltc
      · obtain ⟨ansf, bestf, heq, hle, hbnd, hcase⟩ :=
          ih ans best hpw.of_cons
            (fun c hc hcu => hacc c (List.mem_cons_of_mem d hc) hcu)
        rw [hstep, if_neg himp]
        refine ⟨ansf, bestf, heq, hle, ?_, ?_⟩
        · intro c hc hcu
          rcases List.mem_cons.mp hc with rfl | hc'
          · exact le_trans hle (not_lt.mp himp)
          · exact hbnd c hc' hcu
        · rcases hcase with ⟨h1, h2⟩ | ⟨c, hcrest, hcu, hbf, hansf, hlt, hfirst⟩
          · exact Or.inl ⟨h1, h2⟩
          · refine Or.inr ⟨c, List.mem_cons_of_mem d hcrest, hcu, hbf, hansf, hlt, ?_⟩
            intro c' hc' hcu' hltc
            rcases List.mem_cons.mp hc' with rfl | hc''
            · exact lt_of_lt_of_le hlt (not_lt.mp himp)
            · exact hfirst c' hc'' hcu' hltc
    · have hstep : TSPloop g tsp mask pos (d :: rest) ans best =
          TSPloop g tsp mask pos rest ans best := by
        simp [TSPloop, hd]
      obtain ⟨ansf, bestf, heq, hle, hbnd, hcase⟩ :=
        ih ans best hpw.of_cons
          (fun c hc hcu => hacc c (List.mem_cons_of_mem d hc) hcu)
      rw [hstep]
      refine ⟨ansf, bestf, heq, hle, ?_, ?_⟩
      · intro c hc hcu
        rcases List.mem_cons.mp hc with rfl | hc'
        · exact absurd hcu hd
        · exact hbnd c hc' hcu
      · rcases hcase with ⟨h1, h2⟩ | ⟨c, hcrest, hcu, hbf, hansf, hlt, hfirst⟩
        · exact Or.inl ⟨h1, h2⟩
        · refine Or.inr ⟨c, List.mem_cons_of_mem d hcrest, hcu, hbf, hansf, hlt, ?_⟩
          intro c' hc' hcu' hltc
          rcases List.mem_cons.mp hc' with rfl | hc''
          · exact absurd hcu' hd
          · exact hfirst c' hc'' hcu' hltc

/-! ### Full characterization of `TSP` against the true optimum -/

theorem TSP_char :
    ∀ (fuel : Nat) (g : List (List Int)) (n mask pos : Nat),
    validM g → g.length = n → pos < n → mask < 2 ^ n → (unv n mask).length < fuel →
    ∃ ans best, TSP g n fuel mask pos = .ok (ans, best) ∧
      ans ≤ tourMin g n mask pos ∧
      min MAX (tourMin g n mask pos) ≤ ans ∧
      (mask = 2 ^ n - 1 → ans = tourMin g n mask pos ∧ best = none) ∧
      (mask ≠ 2 ^ n - 1 →
        ((best = none ∧ ans = MAX) ∨
         (∃ c, best = some c ∧ c ∈ unv n mask ∧
            ans = tourMin g n mask pos ∧ ans < MAX ∧
            tourMin g n (mask ||| (1 <<< c)) c < MAX ∧
            ans = getE g pos c + tourMin g n (mask ||| (1 <<< c)) c ∧
            (∀ c' ∈ unv n mask, c' < c →
              ans < getE g pos c' + tourMin g n (mask ||| (1 <<< c')) c')))) := by
  intro fuel
  induction fuel with
  | zero => intro g n mask pos _ _ _ _ hfuel; omega
  | succ f ih =>
    intro g n mask pos hv hlen hpos hmask hfuel
    by_cases hfull : mask = 2 ^ n - 1
    · obtain ⟨row, hrow, hentry, hge⟩ :=
        valid_access hv (show pos < g.length by omega) (show 0 < g.length by omega)
      have hunv : unv n mask = [] := (unv_nil_iff hmask).mpr hfull
      have htm : tourMin g n mask pos = getE g pos 0 := tourMin_base hunv
      have hstep : TSP g n (f + 1) mask pos = .ok (getE g pos 0, none) := by
        simp [TSP, hfull, hrow, hentry]
      refine ⟨getE g pos 0, none, hstep, le_of_eq htm.symm, ?_,
        fun _ => ⟨htm.symm, rfl⟩, fun h => absurd hfull h⟩
      rw [htm]
      exact min_le_right _ _
    · have hne : unv n mask ≠ [] := fun h => hfull ((unv_nil_iff hmask).mp h)
      have hstep : TSP g n (f + 1) mask pos =
          TSPloop g (fun m p => (TSP g n f m p).map Prod.fst) mask pos
            (List.range n) MAX none := by
        simp [TSP, hfull, hmask, hpos]
      set val : Nat → Int := fun c =>
        (match TSP g n f (mask ||| (1 <<< c)) c with
          | Except.ok ab => ab.1
          | Except.error _ => 0) with hval
      have hchild : ∀ c ∈ unv n mask,
          (TSP g n f (mask ||| (1 <<< c)) c).map Prod.fst = Except.ok (val c) ∧
          val c ≤ tourMin g n (mask ||| (1 <<< c)) c ∧
          min MAX (tourMin g n (mask ||| (1 <<< c)) c) ≤ val c := by
        intro c hc
        obtain ⟨hcn, hcu⟩ := mem_unv.mp hc
        obtain ⟨ac, bc, hceq, h1, h2, _, _⟩ := ih g n (mask ||| (1 <<< c)) c hv hlen hcn
          (or_shift_lt hmask hcn) (by have := unv_length_lt hc; omega)
        have hvc : val c = ac := by simp only [hval, hceq]
        rw [hvc]
        exact ⟨by rw [hceq]; rfl, h1, h2⟩
      have hacc : ∀ c ∈ List.range n, mask &&& (1 <<< c) = 0 →
          (∃ row, pyIdx g pos = .ok row ∧ pyIdx row c = .ok (getE g pos c)) ∧
          (fun m p => (TSP g n f m p).map Prod.fst) (mask ||| (1 <<< c)) c = .ok (val c) := by
        intro c hc hcu
        have hcn : c < n := List.mem_range.mp hc
        have hcunv : c ∈ unv n mask := mem_unv.mpr ⟨hcn, hcu⟩
        obtain ⟨row, hr1, hr2, _⟩ :=
          valid_access hv (show pos < g.length by omega) (show c < g.length by omega)
        exact ⟨⟨row, hr1, hr2⟩, (hchild c hcunv).1⟩
      obtain ⟨ansf, bestf, heq, hle0, hbnd, hcase⟩ :=
        TSPloop_char g (fun m p => (TSP g n f m p).map Prod.fst) mask pos val
          (List.range n) MAX none (List.pairwise_lt_range n) hacc
      have hB := @tourMin_decomp g n mask pos hne
      have htm_le : ∀ c ∈ unv n mask,
          tourMin g n mask pos ≤ getE g pos c + tourMin g n (mask ||| (1 <<< c)) c := by
        intro c hc
        rw [hB]
        exact minL_le (List.mem_map.mpr ⟨c, hc, rfl⟩)
      have hup : ansf ≤ tourMin g n mask pos := by
        have hmem := minL_mem (show ((unv n mask).map fun c =>
          getE g pos c + tourMin g n (mask ||| (1 <<< c)) c) ≠ [] by simp [hne])
        obtain ⟨c0, hc0, hc0eq⟩ := List.mem_map.mp hmem
        obtain ⟨hc0n, hc0u⟩ := mem_unv.mp hc0
        rw [hB, ← hc0eq]
        calc ansf ≤ getE g pos c0 + val c0 := hbnd c0 (List.mem_range.mpr hc0n) hc0u
          _ ≤ getE g pos c0 + tourMin g n (mask ||| (1 <<< c0)) c0 := by
              have := (hchild c0 hc0).2.1
              linarith
      have hlow : min MAX (tourMin g n mask pos) ≤ ansf := by
        rcases hcase with ⟨h1, _⟩ | ⟨c, hcr, hcu, _, hansf, _, _⟩
        · rw [h1]
          exact min_le_left _ _
        · have hcn : c < n := List.mem_range.mp hcr
          have hcunv : c ∈ unv n mask := mem_unv.mpr ⟨hcn, hcu⟩
          obtain ⟨_, _, _, hge⟩ :=
            valid_access hv (show pos < g.length by omega) (show c < g.length by omega)
          have hchild_lo := (hchild c hcunv).2.2
          rcases le_total MAX (tourMin g n (mask ||| (1 <<< c)) c) with hM | hM
          · rw [min_eq_left hM] at hchild_lo
            have h2 : MAX ≤ ansf := by rw [hansf]; linarith
            exact le_trans (min_le_left _ _) h2
          · rw [min_eq_right hM] at hchild_lo
            have h3 := htm_le c hcunv
            have h2 : tourMin g n mask pos ≤ ansf := by rw [hansf]; linarith
            exact le_trans (min_le_right _ _) h2
      refine ⟨ansf, bestf, by rw [hstep]; exact heq, hup, hlow, fun h => absurd h hfull, ?_⟩
      intro _
      rcases hcase with ⟨h1, h2⟩ | ⟨c, hcr, hcu, hbf, hansf, hlt, hfirst⟩
      · exact Or.inl ⟨h2, h1⟩
      · have hcn : c < n := List.mem_range.mp hcr
        have hcunv : c ∈ unv n mask := mem_unv.mpr ⟨hcn, hcu⟩
        obtain ⟨_, _, _, hge⟩ :=
          valid_access hv (show pos < g.length by omega) (show c < g.length by omega)
        have htmlt : tourMin g n mask pos < MAX := by
          by_contra hcon
          push_neg at hcon
          rw [min_eq_left hcon] at hlow
          linarith
        have hans_eq : ansf = tourMin g n mask pos := by
          rw [min_eq_right (le_of_lt htmlt)] at hlow
          exact le_antisymm hup hlow
        have htmc_lt : tourMin g n (mask ||| (1 <<< c)) c < MAX := by
          by_contra hcon
          push_neg at hcon
          have h2 := (hchild c hcunv).2.2
          rw [min_eq_left hcon] at h2
          linarith
        have hvalc_eq : val c = tourMin g n (mask ||| (1 <<< c)) c := by
          have h1 := (hchild c hcunv).2.1
          have h2 := (hchild c hcunv).2.2
          rw [min_eq_right (le_of_lt htmc_lt)] at h2
          linarith
        refine Or.inr ⟨c, hbf, hcunv, hans_eq, hlt, htmc_lt, by rw [hansf, hvalc_eq], ?_⟩
        intro c' hc' hltc
        obtain ⟨hc'n, hc'u⟩ := mem_unv.mp hc'
        have hf := hfirst c' (List.mem_range.mpr hc'n) hc'u hltc
        have hch := (hchild c' hc').2.1
        linarith

/-! ### Reconstruction -/

theorem one_and_shift (c : Nat) : 1 &&& (1 <<< c) = 0 ↔ c ≠ 0 := by
  rw [and_shift_eq_zero]
  constructor
  · intro h hc
    subst hc
    rw [show (1 : Nat) = 2 ^ 0 from rfl, Nat.testBit_two_pow_self] at h
    exact Bool.noConfusion h
  · intro h
    rw [show (1 : Nat) = 2 ^ 0 from rfl]
    exact Nat.testBit_two_pow_of_ne (fun h0 => h h0.symm)

theorem unv_one_length (n : Nat) (h : 1 ≤ n) : (unv n 1).length = n - 1 := by
  induction n with
  | zero => omega
  | succ m ihm =>
    rcases Nat.eq_zero_or_pos m with rfl | hm
    · decide
    · rw [unv, List.range_succ, List.filter_append]
      have hpm : ((1 : Nat) &&& (1 <<< m) == 0) = true := by
        rw [beq_iff_eq]
        exact (one_and_shift m).mpr (by omega)
      rw [show (List.range m).filter (fun c => 1 &&& (1 <<< c) == 0) = unv m 1 from rfl]
      simp only [List.filter_cons, hpm, List.filter_nil, List.length_append, ihm hm]
      simp
      omega

theorem perm_range_of {l : List Nat} {n : Nat} (hnd : l.Nodup) (hlen : l.length = n)
    (hsub : ∀ c ∈ l, c < n) : l.Perm (List.range n) := by
  apply List.perm_of_nodup_nodup_toFinset_eq hnd (List.nodup_range n)
  apply Finset.eq_of_subset_of_card_le
  · intro x hx
    rw [List.mem_toFinset] at hx
    rw [List.mem_toFinset, List.mem_range]
    exact hsub x hx
  · rw [List.toFinset_card_of_nodup hnd, List.toFinset_card_of_nodup (List.nodup_range n)]
    simp [hlen]

theorem recon_char :
    ∀ (fuel : Nat) (g : List (List Int)) (n mask pos : Nat) (path : List Nat),
    validM g → g.length = n → pos < n → mask < 2 ^ n →
    tourMin g n mask pos < MAX →
    path.Nodup → (∀ c ∈ path, c < n) →
    (∀ c, c < n → (mask &&& (1 <<< c) = 0 ↔ c ∉ path)) →
    path.length + (unv n mask).length = n →
    n ≤ path.length + fuel →
    ∃ rest, reconLoop g n fuel mask pos path = .ok (path ++ rest ++ [0]) ∧
      pathCost g pos rest = tourMin g n mask pos ∧
      (path ++ rest).Nodup ∧ (∀ c ∈ path ++ rest, c < n) ∧
      (path ++ rest).length = n := by
  intro fuel
  induction fuel with
  | zero =>
    intro g n mask pos path hv hlen hpos hmask htm hnd hsub hbits hcount hfuel
    have hnot : ¬ path.length < n := by omega
    have hunv : unv n mask = [] := List.length_eq_zero.mp (by omega)
    refine ⟨[], by simp [reconLoop, hnot], ?_, by simp [hnd], by simpa using hsub, by simp; omega⟩
    simp only [pathCost]
    exact (tourMin_base hunv).symm
  | succ f ih =>
    intro g n mask pos path hv hlen hpos hmask htm hnd hsub hbits hcount hfuel
    by_cases hlt : path.length < n
    · have hfuelTSP : (unv n mask).length < n + 1 := by omega
      obtain ⟨ans, best, heq, hle, hge, hbase, hrec⟩ :=
        TSP_char (n + 1) g n mask pos hv hlen hpos hmask hfuelTSP
      have hfull : mask ≠ 2 ^ n - 1 := by
        intro h
        have h0 := (unv_nil_iff hmask).mpr h
        rw [h0] at hcount
        simp at hcount
        omega
      rcases hrec hfull with ⟨hbn, hansMAX⟩ | ⟨c, hbf, hcunv, hans_eq, hanslt, htmc, hans_split, _⟩
      · exfalso
        rw [min_eq_right (le_of_lt htm)] at hge
        rw [hansMAX] at hle
        linarith
      · have hnm : nextMove g n mask pos = some c := by
          simp [nextMove, heq, hbf]
        have hstep : reconLoop g n (f + 1) mask pos path =
            reconLoop g n f (mask ||| (1 <<< c)) c (path ++ [c]) := by
          simp [reconLoop, hlt, hnm]
        obtain ⟨hcn, hcu⟩ := mem_unv.mp hcunv
        have hcp : c ∉ path := (hbits c hcn).mp hcu
        have hnd' : (path ++ [c]).Nodup := by
          rw [List.nodup_append]
          refine ⟨hnd, by simp, fun a ha hb => ?_⟩
          rw [List.mem_singleton] at hb
          exact hcp (hb ▸ ha)
        have hsub' : ∀ x ∈ path ++ [c], x < n := by
          intro x hx
          rcases List.mem_append.mp hx with h1 | h1
          · exact hsub x h1
          · rw [List.mem_singleton] at h1
            omega
        have hbits' : ∀ x, x < n →
            ((mask ||| (1 <<< c)) &&& (1 <<< x) = 0 ↔ x ∉ path ++ [c]) := by
          intro x hx
          rw [and_or_shift, hbits x hx]
          simp [List.mem_append]
        have hulen : 0 < (unv n mask).length :=
          List.length_pos.mpr (fun h => by rw [h] at hcunv; cases hcunv)
        have hcount' : (path ++ [c]).length + (unv n (mask ||| (1 <<< c))).length = n := by
          rw [unv_or hcunv, List.length_erase_of_mem hcunv]
          simp only [List.length_append, List.length_singleton]
          omega
        obtain ⟨rest', hres, hcost, hndf, hsubf, hlenf⟩ :=
          ih g n (mask ||| (1 <<< c)) c (path ++ [c]) hv hlen hcn
            (or_shift_lt hmask hcn) htmc hnd' hsub' hbits' hcount'
            (by simp only [List.length_append, List.length_singleton]; omega)
        have hassoc : path ++ c :: rest' = (path ++ [c]) ++ rest' := by simp
        refine ⟨c :: rest', ?_, ?_, ?_, ?_, ?_⟩
        · rw [hstep, hres]
          simp
        · simp only [pathCost]
          rw [hcost, ← hans_split]
          exact hans_eq
        · rw [hassoc]
          exact hndf
        · rw [hassoc]
          exact hsubf
        · rw [hassoc]
          exact hlenf
    · have hunv : unv n mask = [] := List.length_eq_zero.mp (by omega)
      refine ⟨[], by simp [reconLoop, hlt], ?_, by simp [hnd], by simpa using hsub, by simp; omega⟩
      simp only [pathCost]
      exact (tourMin_base hunv).symm

/-! ### Main correctness of `dp` -/

theorem valid_one {g : List (List Int)} (hv : validM g) (h1 : g.length = 1) :
    g = [[0]] := by
  cases g with
  | nil => simp at h1
  | cons row rest =>
    have hrest : rest = [] := by
      simp only [List.length_cons] at h1
      exact List.length_eq_zero.mp (by omega)
    subst hrest
    have hrl : row.length = 1 := hv.1 row (by simp)
    cases row with
    | nil => simp at hrl
    | cons x r2 =>
      have hr2 : r2 = [] := by
        simp only [List.length_cons] at hrl
        exact List.length_eq_zero.mp (by omega)
      subst hr2
      have hd : getE [[x]] 0 0 = 0 := hv.2.2 0 (by simp)
      have : x = 0 := by simpa [getE] using hd
      rw [this]

theorem unv_len_le (n mask : Nat) : (unv n mask).length ≤ n := by
  have := List.length_filter_le (fun c => mask &&& (1 <<< c) == 0) (List.range n)
  simpa using this

theorem dp_master {g : List (List Int)} (hv : validM g) (hn : 1 ≤ g.length)
    (hopt : hamMin g < MAX) :
    ∃ rest, dp g = .ok (hamMin g, 0 :: (rest ++ [0])) ∧
      pathCost g 0 rest = hamMin g ∧
      (0 :: rest).Nodup ∧ (∀ c ∈ 0 :: rest, c < g.length) ∧
      (0 :: rest).length = g.length := by
  have hmask1 : (1 : Nat) < 2 ^ g.length := Nat.one_lt_two_pow (by omega)
  obtain ⟨ans, best, heq, hle, hge, hbase, hrec⟩ :=
    TSP_char (g.length + 1) g g.length 1 0 hv rfl (by omega) hmask1
      (by have := unv_len_le g.length 1; omega)
  have htm : tourMin g g.length 1 0 < MAX := hopt
  have hans : ans = tourMin g g.length 1 0 := by
    rw [min_eq_right (le_of_lt htm)] at hge
    exact le_antisymm hle hge
  have hbits0 : ∀ c, c < g.length → ((1 : Nat) &&& (1 <<< c) = 0 ↔ c ∉ [0]) := by
    intro c _
    rw [one_and_shift]
    simp
  obtain ⟨rest, hres, hcost, hnd, hsub, hlenf⟩ :=
    recon_char g.length g g.length 1 0 [0] hv rfl (by omega) hmask1 htm
      (by simp) (by intro c hc; rw [List.mem_singleton] at hc; omega) hbits0
      (by rw [List.length_singleton, unv_one_length g.length hn]; omega)
      (by simp)
  have hdp : dp g = .ok (ans, [0] ++ rest ++ [0]) := by
    simp only [dp]
    rw [heq, hres]
  refine ⟨rest, ?_, ?_, by simpa using hnd, by simpa using hsub, by simpa using hlenf⟩
  · rw [hdp, hans]
    rfl
  · rw [hcost]
    rfl

theorem dp_ok_inv {g : List (List Int)} (hv : validM g) (hn : 2 ≤ g.length)
    {c : Int} {t : List Nat} (h : dp g = .ok (c, t)) : hamMin g < MAX := by
  by_contra hcon
  push_neg at hcon
  have hmask1 : (1 : Nat) < 2 ^ g.length := Nat.one_lt_two_pow (by omega)
  obtain ⟨ans, best, heq, hle, hge, hbase, hrec⟩ :=
    TSP_char (g.length + 1) g g.length 1 0 hv rfl (by omega) hmask1
      (by have := unv_len_le g.length 1; omega)
  have hfull : (1 : Nat) ≠ 2 ^ g.length - 1 := by
    have h4 : 4 ≤ 2 ^ g.length := by
      calc (4 : Nat) = 2 ^ 2 := rfl
        _ ≤ 2 ^ g.length := Nat.pow_le_pow_right (by omega) hn
    omega
  rcases hrec hfull with ⟨hbn, _⟩ | ⟨c0, _, _, hans_eq, hanslt, _, _, _⟩
  · have hnm : nextMove g g.length 1 0 = none := by
      simp [nextMove, heq, hbn]
    have hkey : reconLoop g g.length g.length 1 0 [0] = .error PyErr.keyError := by
      obtain ⟨f, hf⟩ : ∃ f, g.length = f + 1 := ⟨g.length - 1, by omega⟩
      have hf1 : (1 : Nat) < f + 1 := by omega
      rw [hf] at hnm
      rw [show reconLoop g g.length g.length 1 0 [0] =
          reconLoop g (f + 1) (f + 1) 1 0 [0] from by rw [hf]]
      simp [reconLoop, hnm, hf1]
    have hderr : dp g = .error PyErr.keyError := by
      simp only [dp]
      rw [heq, hkey]
    rw [h] at hderr
    exact Except.noConfusion hderr
  · rw [hans_eq] at hanslt
    exact absurd hanslt (not_lt.mpr hcon)

/-! ### Correctness of `brute` on 4-city instances -/

theorem pathWeight_ok {g : List (List Int)} (hv : validM g) (h0 : 0 < g.length) :
    ∀ (perm : List Nat) (k : Nat) (w : Int), k < g.length → (∀ j ∈ perm, j < g.length) →
    pathWeight g 0 k perm w = .ok (w + pathCost g k perm) := by
  intro perm
  induction perm with
  | nil =>
    intro k w hk _
    obtain ⟨row, hr1, hr2, _⟩ := valid_access hv hk h0
    simp [pathWeight, hr1, hr2, pathCost]
  | cons j rest ihp =>
    intro k w hk hj
    obtain ⟨row, hr1, hr2, _⟩ := valid_access hv hk (hj j (by simp))
    simp only [pathWeight, hr1, hr2]
    rw [ihp j (w + getE g k j) (hj j (by simp)) (fun x hx => hj x (by simp [hx]))]
    simp only [pathCost]
    rw [add_assoc]

theorem bruteLoop_char {g : List (List Int)} (hv : validM g) (h0 : 0 < g.length) :
    ∀ (ps : List (List Nat)) (mc : Int) (mp : List Nat),
    (∀ p ∈ ps, ∀ j ∈ p, j < g.length) →
    ∃ mcf mpf, bruteLoop g 0 ps mc mp = .ok (mcf, mpf) ∧
      mcf ≤ mc ∧ (∀ p ∈ ps, mcf ≤ pathCost g 0 p) ∧
      (mcf = mc ∨ ∃ p ∈ ps, mcf = pathCost g 0 p) := by
  intro ps
  induction ps with
  | nil =>
    intro mc mp _
    exact ⟨mc, mp, rfl, le_refl _, by simp, Or.inl rfl⟩
  | cons p ps ihb =>
    intro mc mp hin
    have hpw := pathWeight_ok hv h0 p 0 0 h0 (hin p (by simp))
    rw [zero_add] at hpw
    have hstep : bruteLoop g 0 (p :: ps) mc mp =
        (if pathCost g 0 p < mc then bruteLoop g 0 ps (pathCost g 0 p) p
         else bruteLoop g 0 ps mc mp) := by
      simp [bruteLoop, hpw]
    by_cases himp : pathCost g 0 p < mc
    · obtain ⟨mcf, mpf, heq, hle, hbnd, hcase⟩ :=
        ihb (pathCost g 0 p) p (fun q hq => hin q (List.mem_cons_of_mem p hq))
      rw [hstep, if_pos himp]
      refine ⟨mcf, mpf, heq, le_trans hle (le_of_lt himp), ?_, ?_⟩
      · intro q hq
        rcases List.mem_cons.mp hq with rfl | hq'
        · exact hle
        · exact hbnd q hq'
      · rcases hcase with h | ⟨q, hq, he⟩
        · exact Or.inr ⟨p, by simp, h⟩
        · exact Or.inr ⟨q, List.mem_cons_of_mem p hq, he⟩
    · obtain ⟨mcf, mpf, heq, hle, hbnd, hcase⟩ :=
        ihb mc mp (fun q hq => hin q (List.mem_cons_of_mem p hq))
      rw [hstep, if_neg himp]
      refine ⟨mcf, mpf, heq, hle, ?_, ?_⟩
      · intro q hq
        rcases List.mem_cons.mp hq with rfl | hq'
        · exact le_trans hle (not_lt.mp himp)
        · exact hbnd q hq'
      · rcases hcase with h | ⟨q, hq, he⟩
        · exact Or.inl h
        · exact Or.inr ⟨q, List.mem_cons_of_mem p hq, he⟩

theorem brute_opt {g : List (List Int)} (hv : validM g) (hlen4 : g.length = 4)
    (hopt : hamMin g < MAX) : ∃ t, brute g 0 = .ok (hamMin g, t) := by
  have hvert : (List.range 4).filter (fun i => i != 0) = [1, 2, 3] := by decide
  have hunv : unv 4 1 = [1, 2, 3] := by decide
  have hmem_bound : ∀ p ∈ itperms [1, 2, 3], ∀ j ∈ p, j < g.length := by
    intro p hp j hj
    have hj3 : j ∈ [1, 2, 3] := (mem_itperms.mp hp).subset hj
    rw [hlen4]
    simp at hj3
    omega
  obtain ⟨mcf, mpf, heq, hle, hbnd, hcase⟩ :=
    bruteLoop_char hv (by omega) (itperms [1, 2, 3]) maxsize [] hmem_bound
  have hham : hamMin g = minL ((itperms [1, 2, 3]).map (pathCost g 0)) := by
    rw [hamMin, hlen4, tourMin, hunv]
  have hmcf : mcf = hamMin g := by
    apply le_antisymm
    · rw [hham]
      obtain ⟨p0, hp0, hp0eq⟩ := List.mem_map.mp
        (minL_mem (show ((itperms [1, 2, 3]).map (pathCost g 0)) ≠ [] by
          simp [itperms_ne_nil]))
      rw [← hp0eq]
      exact hbnd p0 hp0
    · rcases hcase with h | ⟨q, hq, he⟩
      · rw [h]
        have hms : MAX < maxsize := by norm_num [MAX, maxsize]
        linarith
      · rw [he, hham]
        exact minL_le (List.mem_map.mpr ⟨q, hq, rfl⟩)
  refine ⟨0 :: (mpf ++ [0]), ?_⟩
  simp only [brute, hvert]
  rw [heq, hmcf]

/-! ### State-invariant helpers -/

theorem and_shift_ne_zero (mask c : Nat) :
    mask &&& (1 <<< c) ≠ 0 ↔ mask.testBit c = true := by
  rw [Ne, and_shift_eq_zero]
  simp

theorem or_preserves_bit {mask c : Nat} (b : Nat) (h : mask &&& (1 <<< c) ≠ 0) :
    (mask ||| b) &&& (1 <<< c) ≠ 0 := by
  rw [and_shift_ne_zero] at h ⊢
  rw [Nat.testBit_or, h]
  simp

theorem or_sets_bit (mask c : Nat) : (mask ||| (1 <<< c)) &&& (1 <<< c) ≠ 0 := by
  rw [and_shift_ne_zero, Nat.testBit_or, Nat.one_shiftLeft, Nat.testBit_two_pow_self]
  simp

theorem tourSum_close (g : List (List Int)) :
    ∀ (rest : List Nat) (pos : Nat), tourSum g (pos :: (rest ++ [0])) = pathCost g pos rest := by
  intro rest
  induction rest with
  | nil =>
    intro pos
    simp [tourSum, pathCost]
  | cons c cs ihr =>
    intro pos
    simp only [List.cons_append, tourSum, pathCost]
    exact congrArg (fun z => getE g pos c + z) (ihr c)

/-! ### Claim theorems -/

/-- C1 (counterexample): the claim as stated is false.  The matrix
`[[0, 500000], [500000, 0]]` is a valid Cost Matrix with n = 2, yet `dp` does
not return the optimal cost at all: every Hamiltonian cycle costs at least
`MAX = 999999`, so no `next_move` entry is ever recorded and reconstruction
raises `KeyError`. -/
theorem C1_counterexample :
    validM [[0, 500000], [500000, 0]] ∧
    2 ≤ ([[0, 500000], [500000, 0]] : List (List Int)).length ∧
    dp [[0, 500000], [500000, 0]] = .error PyErr.keyError ∧
    ¬ ∃ t, dp [[0, 500000], [500000, 0]] = .ok (hamMin [[0, 500000], [500000, 0]], t) := by
  refine ⟨by decide, by decide, by decide, ?_⟩
  rintro ⟨t, ht⟩
  rw [show dp [[0, 500000], [500000, 0]] = .error PyErr.keyError from by decide] at ht
  exact Except.noConfusion ht

/-- C1 (amended): for every valid Cost Matrix with n ≥ 2 whose minimum
Hamiltonian-cycle cost is below the sentinel `MAX = 999999`, `dp` returns
exactly that minimum as its cost. -/
theorem C1_dp_optimal {g : List (List Int)} (hv : validM g) (hn : 2 ≤ g.length)
    (hopt : hamMin g < MAX) : ∃ t, dp g = .ok (hamMin g, t) := by
  obtain ⟨rest, hdp, _, _, _, _⟩ := dp_master hv (by omega) hopt
  exact ⟨_, hdp⟩

/-- C1 (witness): the amended theorem applied to a concrete 4-city matrix. -/
theorem C1_dp_optimal_witness :
    validM [[0,10,15,20],[10,0,35,25],[15,35,0,300],[20,25,300,0]] ∧
    2 ≤ ([[0,10,15,20],[10,0,35,25],[15,35,0,300],[20,25,300,0]] : List (List Int)).length ∧
    hamMin [[0,10,15,20],[10,0,35,25],[15,35,0,300],[20,25,300,0]] < MAX ∧
    ∃ t, dp [[0,10,15,20],[10,0,35,25],[15,35,0,300],[20,25,300,0]] =
      .ok (hamMin [[0,10,15,20],[10,0,35,25],[15,35,0,300],[20,25,300,0]], t) :=
  ⟨by decide, by decide, by decide, C1_dp_optimal (by decide) (by decide) (by decide)⟩

/-- C2 (counterexample): the claim as stated is false.  `brute` hard-codes
`V = 4`, so on the valid 2-city matrix `[[0, 1], [1, 0]]` it indexes row 1 at
column 2 and raises `IndexError` instead of producing a cost to compare. -/
theorem C2_counterexample :
    validM [[0, 1], [1, 0]] ∧
    2 ≤ ([[0, 1], [1, 0]] : List (List Int)).length ∧
    ([[0, 1], [1, 0]] : List (List Int)).length ≤ 10 ∧
    brute [[0, 1], [1, 0]] 0 = .error PyErr.indexError ∧
    ¬ ∃ (c : Int) (t t' : List Nat),
      dp [[0, 1], [1, 0]] = .ok (c, t) ∧ brute [[0, 1], [1, 0]] 0 = .ok (c, t') := by
  refine ⟨by decide, by decide, by decide, by decide, ?_⟩
  rintro ⟨c, t, t', _, hb⟩
  rw [show brute [[0, 1], [1, 0]] 0 = .error PyErr.indexError from by decide] at hb
  exact Except.noConfusion hb

/-- C2 (amended): on valid 4×4 Cost Matrices (the only size `brute` handles)
with optimal cost below `MAX`, `dp` and `brute` agree on the optimal cost. -/
theorem C2_dp_eq_brute {g : List (List Int)} (hv : validM g) (h4 : g.length = 4)
    (hopt : hamMin g < MAX) :
    ∃ t t', dp g = .ok (hamMin g, t) ∧ brute g 0 = .ok (hamMin g, t') := by
  obtain ⟨rest, hdp, _, _, _, _⟩ := dp_master hv (by omega) hopt
  obtain ⟨t', hb⟩ := brute_opt hv h4 hopt
  exact ⟨_, t', hdp, hb⟩

/-- C2 (witness): the amended equivalence at a concrete 4-city matrix. -/
theorem C2_dp_eq_brute_witness :
    validM [[0,2,9,10],[1,0,6,4],[15,7,0,8],[6,3,12,0]] ∧
    ([[0,2,9,10],[1,0,6,4],[15,7,0,8],[6,3,12,0]] : List (List Int)).length = 4 ∧
    hamMin [[0,2,9,10],[1,0,6,4],[15,7,0,8],[6,3,12,0]] < MAX ∧
    ∃ t t', dp [[0,2,9,10],[1,0,6,4],[15,7,0,8],[6,3,12,0]] =
        .ok (hamMin [[0,2,9,10],[1,0,6,4],[15,7,0,8],[6,3,12,0]], t) ∧
      brute [[0,2,9,10],[1,0,6,4],[15,7,0,8],[6,3,12,0]] 0 =
        .ok (hamMin [[0,2,9,10],[1,0,6,4],[15,7,0,8],[6,3,12,0]], t') :=
  ⟨by decide, by decide, by decide, C2_dp_eq_brute (by decide) (by decide) (by decide)⟩

/-- C3: whenever `dp` returns a `(cost, tour)` pair on a valid Cost Matrix,
the cost equals the sum of `graph[tour[i]][tour[i+1]]` over the tour. -/
theorem C3_roundtrip {g : List (List Int)} (hv : validM g) {c : Int} {t : List Nat}
    (h : dp g = .ok (c, t)) : c = tourSum g t := by
  rcases Nat.lt_or_ge g.length 1 with h0 | h1
  · have hg : g = [] := List.length_eq_zero.mp (by omega)
    rw [hg] at h
    rw [show dp ([] : List (List Int)) = .error PyErr.indexError from by decide] at h
    exact Except.noConfusion h
  rcases Nat.eq_or_lt_of_le h1 with h1 | h2
  · have hg := valid_one hv h1.symm
    subst hg
    rw [show dp [[(0 : Int)]] = .ok (0, [0, 0]) from by decide] at h
    have hct : (0 : Int) = c ∧ [0, 0] = t := by
      rw [Except.ok.injEq, Prod.mk.injEq] at h
      exact h
    rw [← hct.1, ← hct.2]
    decide
  · have hopt := dp_ok_inv hv (by omega) h
    obtain ⟨rest, hdp, hcost, _, _, _⟩ := dp_master hv (by omega) hopt
    rw [h, Except.ok.injEq, Prod.mk.injEq] at hdp
    rw [hdp.1, hdp.2, tourSum_close, hcost]

/-- C3 (witness): the round-trip check at a concrete 2-city matrix. -/
theorem C3_roundtrip_witness :
    validM [[0, 2], [3, 0]] ∧
    dp [[0, 2], [3, 0]] = .ok (5, [0, 1, 0]) ∧
    (5 : Int) = tourSum [[0, 2], [3, 0]] [0, 1, 0] :=
  ⟨by decide, by decide, C3_roundtrip (by decide) (by decide)⟩

/-- C4: whenever `dp` returns a tour on a valid Cost Matrix with n ≥ 1, the
tour has n+1 entries, starts and ends at city 0, and its first n entries are
a permutation of `{0, ..., n-1}`. -/
theorem C4_tour_shape {g : List (List Int)} (hv : validM g) (hn : 1 ≤ g.length)
    {c : Int} {t : List Nat} (h : dp g = .ok (c, t)) :
    t.length = g.length + 1 ∧ t.head? = some 0 ∧ t.getLast? = some 0 ∧
    t.dropLast.Perm (List.range g.length) := by
  rcases Nat.eq_or_lt_of_le hn with h1 | h2
  · have hg := valid_one hv h1.symm
    subst hg
    rw [show dp [[(0 : Int)]] = .ok (0, [0, 0]) from by decide] at h
    have hct : (0 : Int) = c ∧ [0, 0] = t := by
      rw [Except.ok.injEq, Prod.mk.injEq] at h
      exact h
    rw [← hct.2]
    refine ⟨by decide, by decide, by decide, by decide⟩
  · have hopt := dp_ok_inv hv (by omega) h
    obtain ⟨rest, hdp, _, hnd, hsub, hlenf⟩ := dp_master hv (by omega) hopt
    rw [h, Except.ok.injEq, Prod.mk.injEq] at hdp
    rw [hdp.2]
    refine ⟨?_, rfl, ?_, ?_⟩
    · simp only [List.length_cons, List.length_append, List.length_singleton] at hlenf ⊢
      simp at hlenf ⊢
      omega
    · rw [show (0 :: (rest ++ [0]) : List Nat) = (0 :: rest) ++ [0] from rfl]
      exact List.getLast?_concat _
    · rw [show (0 :: (rest ++ [0]) : List Nat) = (0 :: rest) ++ [0] from rfl,
        List.dropLast_concat]
      exact perm_range_of hnd hlenf hsub

/-- C4 (witness): the tour-shape properties at a concrete 3-city matrix. -/
theorem C4_tour_shape_witness :
    validM [[0,1,4],[2,0,1],[1,7,0]] ∧
    dp [[0,1,4],[2,0,1],[1,7,0]] = .ok (3, [0, 1, 2, 0]) ∧
    ([0, 1, 2, 0] : List Nat).length = 3 + 1 ∧
    ([0, 1, 2, 0] : List Nat).head? = some 0 ∧
    ([0, 1, 2, 0] : List Nat).getLast? = some 0 ∧
    ([0, 1, 2, 0] : List Nat).dropLast.Perm (List.range 3) := by
  refine ⟨by decide, by decide, ?_⟩
  exact @C4_tour_shape [[0,1,4],[2,0,1],[1,7,0]] (by decide) (by decide) 3 [0, 1, 2, 0]
    (by decide)

/-- C5: the claim is what the spec demands, but `dp.py` contains no input
validation whatsoever — there is no `InvalidInputError` anywhere in the
repository.  On the malformed matrix `[[0, 1], [1, 5]]` (non-zero diagonal
entry `graph[1][1] = 5`) `dp` silently runs the recurrence and returns
`(2, [0, 1, 0])` instead of raising. -/
theorem C5_no_validation :
    ¬ validM [[0, 1], [1, 5]] ∧ dp [[0, 1], [1, 5]] = .ok (2, [0, 1, 0]) :=
  ⟨by decide, by decide⟩

/-- C6 (counterexample): the claim as stated is false.  On the valid matrix
`[[0, 999999], [0, 0]]` the single candidate tour costs exactly
`MAX = 999999`, the strict-improvement test `new_cost < MAX` fails, no
`next_move` entry is written, and reconstruction's lookup of state `(1, 0)`
raises `KeyError`. -/
theorem C6_counterexample :
    validM [[0, 999999], [0, 0]] ∧
    2 ≤ ([[0, 999999], [0, 0]] : List (List Int)).length ∧
    dp [[0, 999999], [0, 0]] = .error PyErr.keyError :=
  ⟨by decide, by decide, by decide⟩

/-- C6 (amended): for every valid Cost Matrix with n ≥ 2 whose optimal cost
is below `MAX`, reconstruction never fails: `dp` does not raise `KeyError`
(it returns a result). -/
theorem C6_recon_total {g : List (List Int)} (hv : validM g) (hn : 2 ≤ g.length)
    (hopt : hamMin g < MAX) :
    dp g ≠ .error PyErr.keyError ∧ ∃ c t, dp g = .ok (c, t) := by
  obtain ⟨rest, hdp, _, _, _, _⟩ := dp_master hv (by omega) hopt
  rw [hdp]
  exact ⟨fun hcontra => Except.noConfusion hcontra, _, _, rfl⟩

/-- C6 (witness): the amended statement at a concrete 2-city matrix. -/
theorem C6_recon_total_witness :
    validM [[0, 3], [4, 0]] ∧ hamMin [[0, 3], [4, 0]] < MAX ∧
    dp [[0, 3], [4, 0]] ≠ .error PyErr.keyError ∧
    ∃ c t, dp [[0, 3], [4, 0]] = .ok (c, t) := by
  refine ⟨by decide, by decide, ?_⟩
  exact C6_recon_total (by decide) (by decide) (by decide)

/-- C7: `dp` is a pure function, so two runs on the same matrix give the
identical result; and the move recorded for a state is the first-encountered
minimum: the chosen city `c` attains the optimal completion cost, and every
smaller-indexed unvisited city is strictly worse. -/
theorem C7_deterministic :
    ∀ g : List (List Int), dp g = dp g ∧
    (validM g → ∀ mask pos c, mask < 2 ^ g.length → pos < g.length →
      nextMove g g.length mask pos = some c →
      c ∈ unv g.length mask ∧
      getE g pos c + tourMin g g.length (mask ||| (1 <<< c)) c =
        tourMin g g.length mask pos ∧
      (∀ c' ∈ unv g.length mask, c' < c →
        tourMin g g.length mask pos <
          getE g pos c' + tourMin g g.length (mask ||| (1 <<< c')) c')) := by
  intro g
  refine ⟨rfl, ?_⟩
  intro hv mask pos c hmask hpos hnm
  obtain ⟨ans, best, heq, hle, hge, hbase, hrec⟩ :=
    TSP_char (g.length + 1) g g.length mask pos hv rfl hpos hmask
      (by have := unv_len_le g.length mask; omega)
  simp only [nextMove, heq] at hnm
  by_cases hfull : mask = 2 ^ g.length - 1
  · obtain ⟨_, hbn⟩ := hbase hfull
    rw [hbn] at hnm
    exact Option.noConfusion hnm
  · rcases hrec hfull with ⟨hbn, _⟩ | ⟨c0, hbf, hcunv, hans_eq, _, _, hsplit, hfirst⟩
    · rw [hbn] at hnm
      exact Option.noConfusion hnm
    · rw [hbf, Option.some.injEq] at hnm
      subst hnm
      refine ⟨hcunv, ?_, ?_⟩
      · rw [← hsplit]
        exact hans_eq
      · intro c' hc' hlt
        have hf := hfirst c' hc' hlt
        rw [hans_eq] at hf
        exact hf

/-- C7 (witness): on a fully symmetric 3-city matrix, cities 1 and 2 tie and
the recorded move is the first-encountered minimum, city 1. -/
theorem C7_deterministic_witness :
    dp [[0,5,5],[5,0,5],[5,5,0]] = dp [[0,5,5],[5,0,5],[5,5,0]] ∧
    validM [[0,5,5],[5,0,5],[5,5,0]] ∧
    nextMove [[0,5,5],[5,0,5],[5,5,0]] 3 1 0 = some 1 ∧
    (1 ∈ unv 3 1 ∧
     getE [[0,5,5],[5,0,5],[5,5,0]] 0 1 +
       tourMin [[0,5,5],[5,0,5],[5,5,0]] 3 (1 ||| (1 <<< 1)) 1 =
       tourMin [[0,5,5],[5,0,5],[5,5,0]] 3 1 0 ∧
     (∀ c' ∈ unv 3 1, c' < 1 →
       tourMin [[0,5,5],[5,0,5],[5,5,0]] 3 1 0 <
         getE [[0,5,5],[5,0,5],[5,5,0]] 0 c' +
           tourMin [[0,5,5],[5,0,5],[5,5,0]] 3 (1 ||| (1 <<< c')) c')) :=
  ⟨rfl, by decide, by decide,
    (C7_deterministic [[0,5,5],[5,0,5],[5,5,0]]).2 (by decide) 1 0 1
      (by decide) (by decide) (by decide)⟩

/-- C8: every state reached by the recursion from `(1, 0)`, and every state
looked up during reconstruction, has bit 0 set and has bit `pos` set. -/
theorem C8_state_invariant {g : List (List Int)} (hv : validM g) (hn : 1 ≤ g.length)
    {mask pos : Nat}
    (h : TSPReach g.length mask pos ∨ ReconReach g g.length mask pos) :
    mask &&& 1 ≠ 0 ∧ mask &&& (1 <<< pos) ≠ 0 := by
  rcases h with h | h
  · induction h with
    | init => exact ⟨by decide, by decide⟩
    | @step mask pos city hr hcn hcu ih =>
      exact ⟨show (mask ||| (1 <<< city)) &&& (1 <<< 0) ≠ 0 from
        or_preserves_bit _ (show mask &&& (1 <<< 0) ≠ 0 from ih.1), or_sets_bit _ _⟩
  · induction h with
    | init => exact ⟨by decide, by decide⟩
    | @step mask pos c hr hnm ih =>
      exact ⟨show (mask ||| (1 <<< c)) &&& (1 <<< 0) ≠ 0 from
        or_preserves_bit _ (show mask &&& (1 <<< 0) ≠ 0 from ih.1), or_sets_bit _ _⟩

/-- C8 (witness): the invariant at the initial state of a 1-city instance. -/
theorem C8_state_invariant_witness :
    validM [[0]] ∧ (1 : Nat) &&& 1 ≠ 0 ∧ (1 : Nat) &&& (1 <<< 0) ≠ 0 := by
  refine ⟨by decide, ?_⟩
  exact @C8_state_invariant [[0]] (by decide) (by decide) 1 0 (Or.inl TSPReach.init)

/-- C9: on the unique valid 1×1 Cost Matrix, `dp` returns `(0, [0, 0])` and
the single `TSP` call hits the base case: it records no move (`none`),
i.e. the recursive case is never entered. -/
theorem C9_single_city {g : List (List Int)} (hv : validM g) (h1 : g.length = 1) :
    dp g = .ok (0, [0, 0]) ∧ TSP g 1 2 1 0 = .ok (0, none) := by
  have hg := valid_one hv h1
  subst hg
  exact ⟨by decide, by decide⟩

/-- C9 (witness): the trivial solve at `[[0]]`. -/
theorem C9_single_city_witness :
    dp [[0]] = .ok (0, [0, 0]) ∧ TSP [[0]] 1 2 1 0 = .ok (0, none) :=
  C9_single_city (by decide) rfl

/-- C10: on the empty matrix, the initial call reads memo row `mask = 1` of a
table whose only row is `mask = 0`, raising `IndexError` (not a validation
error, and no `(cost, tour)` result). -/
theorem C10_empty_matrix : dp ([] : List (List Int)) = .error PyErr.indexError := by
  decide

